import Mathlib

/-!
Verification of the vigenere-cipher repository.

The embedding models Python strings as lists of Unicode code points
restricted to ASCII (`List Nat`).  Python's `str.isalpha` / `str.upper`
are modelled on the ASCII range, Python `float` arithmetic on the
frequency tables is modelled exactly over `Rat`, Python division
(which raises `ZeroDivisionError` on a zero denominator) is modelled
by an `Option`-valued division, and a computation that would raise an
exception is modelled as `none`.  `collections.Counter` of a string is
modelled by `List.count` over the underlying list.

Source files embedded below:
  * src/crypto/vigenere.py        (class VigenereCipher)
  * src/analyser/vigenere_analyser.py (class VigenereAnalyser)
  * src/main.py                   (column_table, the reporting consumer)
-/

set_option autoImplicit false
set_option maxRecDepth 100000

/-- ASCII model of Python's per-character `c.isalpha()`. -/
def isalpha (c : Nat) : Bool :=
  decide ((65 ≤ c ∧ c ≤ 90) ∨ (97 ≤ c ∧ c ≤ 122))

/-- ASCII model of Python's per-character upper-casing (`str.upper`). -/
def toUpper (c : Nat) : Nat :=
  if 97 ≤ c ∧ c ≤ 122 then c - 32 else c

/-- A Python value passed as the `key` argument: either a string or a
value of some other type (the tag distinguishes ints, None, lists, ...). -/
inductive PyVal : Type
  | str : List Nat → PyVal
  | other : Nat → PyVal

/-- The two exception kinds raised by `VigenereCipher._validate_key`. -/
inductive PyErr : Type
  | typeError
  | valueError
  deriving DecidableEq

/-- Python's `str.isalpha` on a whole string: nonempty and all
characters alphabetic. -/
def str_isalpha (s : List Nat) : Bool :=
  !s.isEmpty && s.all isalpha

/-- `VigenereCipher._validate_key` (src/crypto/vigenere.py lines 9-20):
`TypeError` for a non-string, `ValueError` when `key.isalpha()` is false
(empty or containing a non-alphabetic character), otherwise the
upper-cased key is stored. -/
def validate_key : PyVal → Except PyErr (List Nat)
  | PyVal.other _ => Except.error PyErr.typeError
  | PyVal.str s =>
      if str_isalpha s then Except.ok (s.map toUpper)
      else Except.error PyErr.valueError

/-- Python's `key * m` (string repetition). -/
def repeatList (l : List Nat) : Nat → List Nat
  | 0 => []
  | n + 1 => l ++ repeatList l n

/-- Number of alphabetic characters of a text
(`len([c for c in text if c.isalpha()])`). -/
def alphaLen (t : List Nat) : Nat :=
  (t.filter isalpha).length

/-- `VigenereCipher._extend_key` (lines 22-29):
`(key * (filtered_len // len(key) + 1))[:filtered_len]`. -/
def extend_key (key t : List Nat) : List Nat :=
  (repeatList key (alphaLen t / key.length + 1)).take (alphaLen t)

/-- The per-character encryption step of `VigenereCipher.encrypt`:
`alphabet[(ord(char.upper()) - ord('A') + (ord(key_char) - ord('A'))) % 26]`.
Integer arithmetic is over `Int` as in Python. -/
def encryptChar (kc c : Nat) : Nat :=
  65 + ((((toUpper c : Int) - 65) + ((kc : Int) - 65)) % 26).toNat

/-- The per-character decryption step of `VigenereCipher.decrypt`:
`alphabet[(ord(char.upper()) - ord('A') - (ord(key_char) - ord('A')) + 26) % 26]`. -/
def decryptChar (kc c : Nat) : Nat :=
  65 + ((((toUpper c : Int) - 65) - ((kc : Int) - 65) + 26) % 26).toNat

/-- The shared character loop of `encrypt` and `decrypt` (lines 40-49 and
61-70): alphabetic characters are transformed with the key letter at
`key_index` (which then advances), all other characters are appended
verbatim.  `F` is the per-character transformation. -/
def cipherGo (F : Nat → Nat → Nat) (ext : List Nat) : Nat → List Nat → List Nat
  | _, [] => []
  | ki, c :: rest =>
      if isalpha c then F (ext.getD ki 0) c :: cipherGo F ext (ki + 1) rest
      else c :: cipherGo F ext ki rest

/-- `VigenereCipher.encrypt` (lines 31-50), with `key` the validated
(upper-cased) key stored by the constructor. -/
def encrypt (key t : List Nat) : List Nat :=
  cipherGo encryptChar (extend_key key t) 0 t

/-- `VigenereCipher.decrypt` (lines 52-71), with `key` the validated
(upper-cased) key stored by the constructor. -/
def decrypt (key t : List Nat) : List Nat :=
  cipherGo decryptChar (extend_key key t) 0 t

/-- Python's `a / b`: raises `ZeroDivisionError` on a zero denominator,
modelled as `none`. -/
def pydiv (a b : Rat) : Option Rat :=
  if b = 0 then none else some (a / b)

/-- Effectful list map over `Option`: models a Python loop that computes
`f` on each element in order and aborts on the first raised exception. -/
def mapOpt {α β : Type} (f : α → Option β) : List α → Option (List β)
  | [] => some []
  | a :: l =>
      match f a, mapOpt f l with
      | some b, some bs => some (b :: bs)
      | _, _ => none

/-- The Portuguese expected-frequency table of `VigenereAnalyser.__init__`
(src/analyser/vigenere_analyser.py lines 21-29), keyed by code point. -/
def ptTable : List (Nat × Rat) :=
  [(65, 1463/10000), (66, 104/10000), (67, 388/10000), (68, 499/10000),
   (69, 1257/10000), (70, 102/10000), (71, 130/10000), (72, 78/10000),
   (73, 618/10000), (74, 39/10000), (75, 2/10000), (76, 278/10000),
   (77, 474/10000), (78, 505/10000), (79, 1073/10000), (80, 252/10000),
   (81, 120/10000), (82, 653/10000), (83, 781/10000), (84, 434/10000),
   (85, 463/10000), (86, 167/10000), (87, 1/10000), (88, 21/10000),
   (89, 1/10000), (90, 47/10000)]

/-- The English expected-frequency table (lines 32-40). -/
def enTable : List (Nat × Rat) :=
  [(65, 817/10000), (66, 149/10000), (67, 278/10000), (68, 425/10000),
   (69, 1270/10000), (70, 223/10000), (71, 202/10000), (72, 609/10000),
   (73, 697/10000), (74, 15/10000), (75, 77/10000), (76, 403/10000),
   (77, 241/10000), (78, 675/10000), (79, 751/10000), (80, 193/10000),
   (81, 10/10000), (82, 599/10000), (83, 633/10000), (84, 906/10000),
   (85, 276/10000), (86, 98/10000), (87, 236/10000), (88, 15/10000),
   (89, 197/10000), (90, 7/10000)]

/-- Python's `dict.get(letter, 0)` on a frequency table. -/
def dictGet (tbl : List (Nat × Rat)) (c : Nat) : Rat :=
  ((tbl.find? (fun p => p.1 == c)).map (fun p => p.2)).getD 0

/-- One per-column record of the shape consumed by `main.py`'s
`column_table` and `plot_column_scores` (keys "position", "best_shift",
"best_score", "scores"). -/
structure ColumnMetric where
  position : Nat
  best_shift : Nat
  best_score : Rat
  scores : List (Nat × Rat)
  deriving DecidableEq

/-- The attribute state of a `VigenereAnalyser` instance.  Attributes a
Python object may or may not have are `Option`-valued; reading an unset
one raises `AttributeError`, modelled as `none` at the read site. -/
structure AnalyserState where
  ciphertext : List Nat
  expected_freqs : List (Nat × Rat)
  key_length_scores : Option (List (Nat × Rat))
  column_metrics : Option (List ColumnMetric)
  deriving DecidableEq

/-- `VigenereAnalyser.__init__` (lines 5-40): the working copy keeps only
the alphabetic characters of the upper-cased input, and the frequency
table is Portuguese when `language == "pt"` and English otherwise.
The (code points of) the tag "pt" are `[112, 116]`. -/
def initAnalyser (ct lang : List Nat) : AnalyserState :=
  { ciphertext := (ct.map toUpper).filter isalpha
    expected_freqs := if lang = [112, 116] then ptTable else enTable
    key_length_scores := none
    column_metrics := none }

/-- Python's `Counter` numerator of `_index_of_coincidence`:
`sum(f * (f - 1) for f in freqs.values())`, iterating over the distinct
characters of the text. -/
def icNum (t : List Nat) : Nat :=
  (t.dedup.map (fun c => t.count c * (t.count c - 1))).sum

/-- `VigenereAnalyser._index_of_coincidence` (lines 45-59):
`sum(f*(f-1)) / (N*(N-1)) if N > 1 else 0`. -/
def ic (t : List Nat) : Option Rat :=
  if 1 < t.length then pydiv (icNum t : Rat) ((t.length * (t.length - 1) : Nat) : Rat)
  else some 0

/-- Fuel-indexed helper for Python's extended slice `text[i::k]`:
takes the head, then recurses after dropping `k - 1` elements. -/
def sliceAux : Nat → List Nat → Nat → List Nat
  | 0, _, _ => []
  | _ + 1, [], _ => []
  | fuel + 1, c :: rest, k => c :: sliceAux fuel (rest.drop (k - 1)) k

/-- Python's `self.ciphertext[i::key_len]`: every `key_len`-th character
starting at offset `i`. -/
def column (ct : List Nat) (i k : Nat) : List Nat :=
  sliceAux ct.length (ct.drop i) k

/-- The per-length body of `estimate_key_length` (lines 74-80): the IC of
each of the `L` columns, averaged (`sum(ic_values) / len(ic_values)`). -/
def keyLenScore (st : AnalyserState) (L : Nat) : Option Rat := do
  let ics ← mapOpt (fun i => ic (column st.ciphertext i L)) (List.range L)
  pydiv ics.sum (ics.length : Rat)

/-- Python's `max(results, key=results.get)` over an insertion-ordered
dict, modelled as a list of key-value pairs: the first key of maximal
value wins; raises `ValueError` (`none`) on an empty dict. -/
def pickMaxKey (results : List (Nat × Rat)) : Option Nat :=
  (results.foldl
    (fun best p =>
      match best with
      | none => some p
      | some b => if p.2 > b.2 then some p else some b)
    none).map (fun p => p.1)

/-- `VigenereAnalyser.estimate_key_length` (lines 61-87): scores each
candidate length in `[1, max_len]`, stores the table in
`self.key_length_scores`, and returns the argmax length. -/
def estimate_key_length (st : AnalyserState) (max_len : Nat) :
    Option (Nat × AnalyserState) := do
  let results ← mapOpt (fun L => (keyLenScore st L).map (fun v => (L, v)))
    (List.range' 1 max_len)
  let best ← pickMaxKey results
  some (best, { st with key_length_scores := some results })

/-- `string.ascii_uppercase` as code points. -/
def alphabetL : List Nat := List.range' 65 26

/-- The hypothetical Caesar decryption of a column by `shift` (lines
130-132): `alphabet[(ord(c) - ord('A') - shift) % 26]` per character. -/
def shiftedText (col : List Nat) (s : Nat) : List Nat :=
  col.map (fun c => 65 + (((c : Int) - 65 - (s : Int)) % 26).toNat)

/-- `VigenereAnalyser._chi_squared` (lines 92-108) applied to the
`Counter` of `text`: `total` is the sum of the counts, and each letter
contributes `(observed - expected)^2 / expected` when
`expected = freq * total` is positive, else `0`. -/
def chi_squared (tbl : List (Nat × Rat)) (text : List Nat) : Option Rat :=
  (mapOpt (fun letter =>
      let expected := dictGet tbl letter * (text.length : Rat)
      let observed := (text.count letter : Rat)
      if 0 < expected then pydiv ((observed - expected) ^ 2) expected
      else some 0)
    alphabetL).map (fun terms => terms.sum)

/-- The 26 per-shift chi-squared scores of one column (loop at lines
129-138 of `recover_key`, before the running-minimum update). -/
def columnScores (st : AnalyserState) (col : List Nat) : Option (List (Nat × Rat)) :=
  mapOpt (fun s => (chi_squared st.expected_freqs (shiftedText col s)).map
    (fun v => (s, v)))
    (List.range 26)

/-- The running minimum of `recover_key` (lines 125-138): `best_shift`
starts as `None` and `best_score` as `float('inf')`, so the first shift
always wins against the initial state and a later shift replaces the
current best only on a strictly smaller score. -/
def pickMinShift (scores : List (Nat × Rat)) : Option (Nat × Rat) :=
  scores.foldl
    (fun best p =>
      match best with
      | none => some p
      | some b => if p.2 < b.2 then some p else some b)
    none

/-- One iteration of the outer loop of `recover_key` (lines 123-141):
score all 26 shifts of the column, take the minimum, and index the
alphabet at the winning shift (`self.alphabet[best_shift]`). -/
def recoverLetter (st : AnalyserState) (col : List Nat) : Option Nat := do
  let scores ← columnScores st col
  let best ← pickMinShift scores
  alphabetL[best.1]?

/-- `VigenereAnalyser.recover_key` (lines 110-142): one letter per column,
concatenated.  The method mutates no attribute, so the state is returned
unchanged. -/
def recover_key (st : AnalyserState) (key_len : Nat) :
    Option (List Nat × AnalyserState) :=
  (mapOpt (fun i => recoverLetter st (column st.ciphertext i key_len))
    (List.range key_len)).map (fun key => (key, st))

/-- `VigenereAnalyser.analyse` (lines 147-161): estimate the key length,
then recover the key at that length. -/
def analyse (st : AnalyserState) (max_len : Nat) :
    Option (List Nat × AnalyserState) := do
  let (est_len, st₁) ← estimate_key_length st max_len
  let (key, st₂) ← recover_key st₁ est_len
  some (key, st₂)

/-- `column_table` from `src/main.py` (lines 57-74): reads
`analyser.column_metrics` (raising `AttributeError`, i.e. `none`, when
the attribute was never set) and extracts position, best shift and best
score per column. -/
def column_table (st : AnalyserState) : Option (List (Nat × Nat × Rat)) :=
  st.column_metrics.map (fun ms =>
    ms.map (fun m => (m.position, m.best_shift, m.best_score)))

/-! ### Generic helper lemmas -/

theorem mapOpt_some_of_forall {α β : Type} (f : α → Option β) (g : α → β) :
    ∀ l : List α, (∀ a ∈ l, f a = some (g a)) → mapOpt f l = some (l.map g) := by
  intro l
  induction l with
  | nil => intro _; rfl
  | cons a l ih =>
      intro h
      have ha := h a (List.mem_cons_self a l)
      have hl := ih (fun x hx => h x (List.mem_cons_of_mem a hx))
      simp [mapOpt, ha, hl]

theorem mapOpt_spec {α β : Type} (f : α → Option β) :
    ∀ (l : List α) (ys : List β), mapOpt f l = some ys →
      ys.length = l.length ∧ ∀ i, i < l.length → ys[i]? = (l[i]?).bind f := by
  intro l
  induction l with
  | nil =>
      intro ys h
      cases ys with
      | nil => exact ⟨rfl, fun i hi => absurd hi (by simp)⟩
      | cons b bs => simp [mapOpt] at h
  | cons a l ih =>
      intro ys h
      unfold mapOpt at h
      cases hfa : f a with
      | none => rw [hfa] at h; simp at h
      | some b =>
          rw [hfa] at h
          cases hrest : mapOpt f l with
          | none => rw [hrest] at h; simp at h
          | some bs =>
              rw [hrest] at h
              simp at h
              obtain ⟨hlen, hget⟩ := ih bs hrest
              subst h
              refine ⟨by simp [hlen], ?_⟩
              intro i hi
              cases i with
              | zero => simp [hfa]
              | succ j => simpa using hget j (by simpa using hi)

theorem mapOpt_isSome {α β : Type} (f : α → Option β) :
    ∀ l : List α, (∀ a ∈ l, (f a).isSome) → (mapOpt f l).isSome := by
  intro l
  induction l with
  | nil => intro _; simp [mapOpt]
  | cons a l ih =>
      intro h
      have ha := h a (List.mem_cons_self a l)
      have hl := ih (fun x hx => h x (List.mem_cons_of_mem a hx))
      rw [Option.isSome_iff_exists] at ha hl
      obtain ⟨b, hb⟩ := ha
      obtain ⟨bs, hbs⟩ := hl
      simp [mapOpt, hb, hbs]

/-! ### Character-level lemmas for the cipher -/

theorem isalpha_toUpper_range {c : Nat} (h : isalpha c = true) :
    65 ≤ toUpper c ∧ toUpper c ≤ 90 := by
  simp [isalpha, decide_eq_true_eq] at h
  unfold toUpper
  split <;> omega

theorem toUpper_of_upper {c : Nat} (h1 : 65 ≤ c) (h2 : c ≤ 90) : toUpper c = c := by
  unfold toUpper
  rw [if_neg]
  omega

theorem encryptChar_range (kc c : Nat) :
    65 ≤ encryptChar kc c ∧ encryptChar kc c ≤ 90 := by
  unfold encryptChar
  omega

theorem encryptChar_alpha (kc c : Nat) : isalpha (encryptChar kc c) = true := by
  have h := encryptChar_range kc c
  simp [isalpha, decide_eq_true_eq]
  omega

theorem decryptChar_encryptChar {kc c : Nat} (hc : isalpha c = true) :
    decryptChar kc (encryptChar kc c) = toUpper c := by
  obtain ⟨h1, h2⟩ := isalpha_toUpper_range hc
  obtain ⟨h3, h4⟩ := encryptChar_range kc c
  unfold decryptChar
  rw [toUpper_of_upper h3 h4]
  unfold encryptChar
  omega

/-! ### Keystream lemmas -/

/-- Number of alphabetic characters strictly before position `p`: the
key index the cipher loop has reached when it meets position `p`. -/
def alphaBefore (t : List Nat) (p : Nat) : Nat :=
  alphaLen (t.take p)

theorem repeatList_length (K : List Nat) : ∀ m, (repeatList K m).length = m * K.length := by
  intro m
  induction m with
  | zero => simp [repeatList]
  | succ n ih => simp [repeatList, ih, Nat.succ_mul]; omega

theorem mem_repeatList {K : List Nat} {x : Nat} :
    ∀ {m}, x ∈ repeatList K m → x ∈ K := by
  intro m
  induction m with
  | zero => intro h; simp [repeatList] at h
  | succ n ih =>
      intro h
      rcases List.mem_append.mp h with h' | h'
      · exact h'
      · exact ih h'

theorem alphaLen_le_mul (K : List Nat) (hK : K ≠ []) (n : Nat) :
    n ≤ (n / K.length + 1) * K.length := by
  have hpos : 0 < K.length := List.length_pos.mpr hK
  have hdm := Nat.div_add_mod n K.length
  have hlt : n % K.length < K.length := Nat.mod_lt _ hpos
  calc n = K.length * (n / K.length) + n % K.length := hdm.symm
    _ ≤ K.length * (n / K.length) + K.length := Nat.add_le_add_left hlt.le _
    _ = (n / K.length + 1) * K.length := by ring

theorem repeatList_getElem? (K : List Nat) (hK : K ≠ []) :
    ∀ m j, j < m * K.length → (repeatList K m)[j]? = K[j % K.length]? := by
  have hpos : 0 < K.length := List.length_pos.mpr hK
  intro m
  induction m with
  | zero => intro j hj; omega
  | succ n ih =>
      intro j hj
      show (K ++ repeatList K n)[j]? = _
      by_cases hjK : j < K.length
      · rw [List.getElem?_append, if_pos hjK, Nat.mod_eq_of_lt hjK]
      · push_neg at hjK
        rw [List.getElem?_append_right hjK]
        have hlt : j - K.length < n * K.length := by
          rw [Nat.succ_mul] at hj; omega
        rw [ih (j - K.length) hlt, Nat.mod_eq_sub_mod hjK]

theorem extend_key_length (K t : List Nat) (hK : K ≠ []) :
    (extend_key K t).length = alphaLen t := by
  unfold extend_key
  rw [List.length_take, repeatList_length]
  exact Nat.min_eq_left (alphaLen_le_mul K hK (alphaLen t))

theorem extend_key_getElem? (K t : List Nat) (hK : K ≠ []) {j : Nat}
    (hj : j < alphaLen t) : (extend_key K t)[j]? = K[j % K.length]? := by
  unfold extend_key
  rw [List.getElem?_take, if_pos hj]
  exact repeatList_getElem? K hK _ j (Nat.lt_of_lt_of_le hj (alphaLen_le_mul K hK _))

theorem mem_extend_key {K t : List Nat} {x : Nat} (h : x ∈ extend_key K t) : x ∈ K :=
  mem_repeatList (List.mem_of_mem_take h)

/-! ### The cipher loop -/

theorem cipherGo_length (F : Nat → Nat → Nat) (ext : List Nat) :
    ∀ t ki, (cipherGo F ext ki t).length = t.length := by
  intro t
  induction t with
  | nil => intro ki; rfl
  | cons c rest ih =>
      intro ki
      unfold cipherGo
      by_cases hc : isalpha c <;> simp [hc, ih]

theorem alphaBefore_cons_succ (c : Nat) (rest : List Nat) (q : Nat) :
    alphaBefore (c :: rest) (q + 1) =
      (if isalpha c then 1 else 0) + alphaBefore rest q := by
  unfold alphaBefore alphaLen
  rw [List.take_succ_cons, List.filter_cons]
  by_cases hc : isalpha c <;> simp [hc] <;> omega

theorem cipherGo_getElem? (F : Nat → Nat → Nat) (ext : List Nat) :
    ∀ t ki p, p < t.length →
      (cipherGo F ext ki t)[p]? =
        some (if isalpha (t.getD p 0)
          then F (ext.getD (ki + alphaBefore t p) 0) (t.getD p 0)
          else t.getD p 0) := by
  intro t
  induction t with
  | nil => intro ki p hp; simp at hp
  | cons c rest ih =>
      intro ki p hp
      cases p with
      | zero =>
          unfold cipherGo
          by_cases hc : isalpha c <;>
            simp [hc, alphaBefore, alphaLen]
      | succ q =>
          have hq : q < rest.length := by simpa using hp
          rw [alphaBefore_cons_succ]
          unfold cipherGo
          by_cases hc : isalpha c
          · rw [if_pos hc]
            rw [List.getElem?_cons_succ, ih (ki + 1) q hq]
            have harith : ki + 1 + alphaBefore rest q =
                ki + (1 + alphaBefore rest q) := by omega
            simp [hc, harith]
          · rw [if_neg hc]
            rw [List.getElem?_cons_succ, ih ki q hq]
            simp [hc]

theorem alphaBefore_lt_alphaLen {t : List Nat} {p : Nat} (hp : p < t.length)
    (ha : isalpha (t.getD p 0) = true) : alphaBefore t p < alphaLen t := by
  have hdrop : t.drop p = t[p] :: t.drop (p + 1) := List.drop_eq_getElem_cons hp
  have hgetD : t.getD p 0 = t[p] := by
    rw [List.getD_eq_getElem?_getD, List.getElem?_eq_getElem hp]
    rfl
  have hsplit : alphaLen t = alphaBefore t p + alphaLen (t.drop p) := by
    unfold alphaBefore alphaLen
    conv_lhs => rw [← List.take_append_drop p t]
    rw [List.filter_append, List.length_append]
  rw [hsplit, hdrop]
  unfold alphaLen
  rw [List.filter_cons, ← hgetD, if_pos (by simpa using ha)]
  simp

theorem cipherGo_roundtrip (ext : List Nat) :
    ∀ t ki, cipherGo decryptChar ext ki (cipherGo encryptChar ext ki t) =
      t.map (fun c => if isalpha c then toUpper c else c) := by
  intro t
  induction t with
  | nil => intro ki; rfl
  | cons c rest ih =>
      intro ki
      by_cases hc : isalpha c
      · simp [cipherGo, hc, encryptChar_alpha, decryptChar_encryptChar hc, ih]
      · simp [cipherGo, hc, ih]

theorem cipherGo_alphaLen (ext : List Nat) :
    ∀ t ki, alphaLen (cipherGo encryptChar ext ki t) = alphaLen t := by
  intro t
  induction t with
  | nil => intro ki; rfl
  | cons c rest ih =>
      intro ki
      by_cases hc : isalpha c
      · simp only [cipherGo, if_pos hc]
        unfold alphaLen
        rw [List.filter_cons, List.filter_cons, if_pos (encryptChar_alpha _ _),
          if_pos hc]
        have := ih (ki + 1)
        unfold alphaLen at this
        simp [this]
      · simp only [cipherGo, if_neg hc]
        unfold alphaLen
        rw [List.filter_cons, List.filter_cons, if_neg hc, if_neg hc]
        exact ih ki

theorem extend_key_encrypt (K t : List Nat) :
    extend_key K (encrypt K t) = extend_key K t := by
  unfold extend_key
  rw [show alphaLen (encrypt K t) = alphaLen t from cipherGo_alphaLen _ t 0]

theorem extend_key_getD (K t : List Nat) (hK : K ≠ []) {j : Nat}
    (hj : j < alphaLen t) :
    (extend_key K t).getD j 0 = K.getD (j % K.length) 0 := by
  rw [List.getD_eq_getElem?_getD, List.getD_eq_getElem?_getD,
    extend_key_getElem? K t hK hj]

theorem validate_key_ok {s K : List Nat}
    (h : validate_key (PyVal.str s) = Except.ok K) :
    s ≠ [] ∧ (∀ c ∈ s, isalpha c = true) ∧ K = s.map toUpper := by
  simp only [validate_key] at h
  by_cases hs : str_isalpha s
  · rw [if_pos hs] at h
    unfold str_isalpha at hs
    rw [Bool.and_eq_true] at hs
    refine ⟨?_, ?_, ?_⟩
    · intro hnil
      subst hnil
      simp at hs
    · intro c hc
      exact List.all_eq_true.mp hs.2 c hc
    · injection h with h'
      exact h'.symm
  · rw [if_neg hs] at h
    cases h

theorem validate_key_ok_ne_nil {s K : List Nat}
    (h : validate_key (PyVal.str s) = Except.ok K) : K ≠ [] := by
  obtain ⟨hs, _, hK⟩ := validate_key_ok h
  subst hK
  simpa using hs

/-! ### Claims about the cipher -/

/-- Claim C2: for every key accepted by key validation and every text,
`decrypt(encrypt(P, K), K)` equals `P` with every alphabetic character
upper-cased and every non-alphabetic character unchanged at its
position. -/
theorem claim_c2_roundtrip (s K t : List Nat)
    (hv : validate_key (PyVal.str s) = Except.ok K) :
    decrypt K (encrypt K t) =
      t.map (fun c => if isalpha c then toUpper c else c) := by
  unfold decrypt
  rw [extend_key_encrypt]
  exact cipherGo_roundtrip (extend_key K t) t 0

/-- Witness for C2: key "lemon" (accepted, stored as "LEMON") on the text
"Attack at dawn!!!"-without-final-bangs, concretely round-tripping to
"ATTACK AT DAWN!". -/
theorem claim_c2_roundtrip_witness :
    decrypt [76, 69, 77, 79, 78] (encrypt [76, 69, 77, 79, 78]
      [65, 116, 116, 97, 99, 107, 32, 97, 116, 32, 100, 97, 119, 110, 33]) =
      [65, 84, 84, 65, 67, 75, 32, 65, 84, 32, 68, 65, 87, 78, 33] :=
  (claim_c2_roundtrip [108, 101, 109, 111, 110] _ _ (by rfl)).trans (by decide)

/-- Claim C6: the keystream advances exactly one key position per
alphabetic input character and repeats cyclically (the `i`-th alphabetic
character is combined with `K[i mod |K|]`), while non-alphabetic
characters are copied verbatim at their positions without advancing the
key index — identically for `encrypt` and `decrypt`. -/
theorem claim_c6_keystream (s K t : List Nat) (p : Nat)
    (hv : validate_key (PyVal.str s) = Except.ok K) (hp : p < t.length) :
    (encrypt K t).length = t.length ∧ (decrypt K t).length = t.length ∧
    (isalpha (t.getD p 0) = false →
      (encrypt K t)[p]? = some (t.getD p 0) ∧
      (decrypt K t)[p]? = some (t.getD p 0)) ∧
    (isalpha (t.getD p 0) = true →
      (encrypt K t)[p]? =
        some (encryptChar (K.getD (alphaBefore t p % K.length) 0) (t.getD p 0)) ∧
      (decrypt K t)[p]? =
        some (decryptChar (K.getD (alphaBefore t p % K.length) 0) (t.getD p 0))) := by
  have hKnil : K ≠ [] := validate_key_ok_ne_nil hv
  refine ⟨cipherGo_length _ _ t 0, cipherGo_length _ _ t 0, ?_, ?_⟩
  · intro h
    unfold encrypt decrypt
    rw [cipherGo_getElem? _ _ t 0 p hp, cipherGo_getElem? _ _ t 0 p hp,
      if_neg (by simp only [Bool.not_eq_true]; exact h),
      if_neg (by simp only [Bool.not_eq_true]; exact h)]
    exact ⟨rfl, rfl⟩
  · intro h
    have hj := alphaBefore_lt_alphaLen hp h
    unfold encrypt decrypt
    rw [cipherGo_getElem? _ _ t 0 p hp, cipherGo_getElem? _ _ t 0 p hp,
      if_pos h, if_pos h]
    simp only [Nat.zero_add]
    rw [extend_key_getD K t hKnil hj]
    exact ⟨rfl, rfl⟩

/-- Witness for C6: key "b" (stored "B") on "a!": position 0 is the 0th
alphabetic character, combined with key letter index 0 to give 'B';
position 1 is non-alphabetic and copied verbatim; decryption of 'a'
under the same key letter gives 'Z'. -/
theorem claim_c6_keystream_witness :
    (encrypt [66] [97, 33]).length = 2 ∧
    (encrypt [66] [97, 33])[0]? = some 66 ∧
    (decrypt [66] [97, 33])[0]? = some 90 ∧
    (encrypt [66] [97, 33])[1]? = some 33 := by
  have h0 := claim_c6_keystream [98] [66] [97, 33] 0 (by rfl) (by decide)
  have h1 := claim_c6_keystream [98] [66] [97, 33] 1 (by rfl) (by decide)
  refine ⟨h0.1, ?_, ?_, ?_⟩
  · rw [(h0.2.2.2 (by decide)).1]; decide
  · rw [(h0.2.2.2 (by decide)).2]; decide
  · rw [(h1.2.2.1 (by decide)).1]; decide

/-- Claim C7: constructing a cipher fails with a type error for every
non-string key, with a value error for the empty key and for every key
containing a non-alphabetic character, and for every accepted key the
stored key is its uppercase normalisation. -/
theorem claim_c7_key_validation :
    (∀ tag, validate_key (PyVal.other tag) = Except.error PyErr.typeError) ∧
    validate_key (PyVal.str []) = Except.error PyErr.valueError ∧
    (∀ s c, c ∈ s → isalpha c = false →
      validate_key (PyVal.str s) = Except.error PyErr.valueError) ∧
    (∀ s K, validate_key (PyVal.str s) = Except.ok K → K = s.map toUpper) := by
  refine ⟨fun _ => rfl, rfl, ?_, ?_⟩
  · intro s c hc hna
    have hfalse : ¬ (str_isalpha s = true) := by
      intro hall
      unfold str_isalpha at hall
      rw [Bool.and_eq_true] at hall
      have hx := List.all_eq_true.mp hall.2 c hc
      rw [hna] at hx
      cases hx
    simp only [validate_key]
    rw [if_neg hfalse]
  · intro s K h
    exact (validate_key_ok h).2.2

/-- Witness for C7: the digit-only key "5" is rejected with a value
error, and the accepted key "ab" is stored as "AB". -/
theorem claim_c7_key_validation_witness :
    validate_key (PyVal.str [53]) = Except.error PyErr.valueError ∧
    validate_key (PyVal.other 0) = Except.error PyErr.typeError ∧
    ([65, 66] : List Nat) = [97, 98].map toUpper :=
  ⟨claim_c7_key_validation.2.2.1 [53] 53 (by decide) (by decide),
   claim_c7_key_validation.1 0,
   claim_c7_key_validation.2.2.2 [97, 98] [65, 66] (by rfl)⟩

/-! ### Closed forms for the analyser's statistics -/

/-- The value computed by `_index_of_coincidence` (the division never
fails under the `N > 1` guard). -/
def icVal (t : List Nat) : Rat :=
  if 1 < t.length then (icNum t : Rat) / ((t.length * (t.length - 1) : Nat) : Rat)
  else 0

theorem ic_eq (t : List Nat) : ic t = some (icVal t) := by
  unfold ic icVal
  by_cases h : 1 < t.length
  · rw [if_pos h, if_pos h]
    unfold pydiv
    rw [if_neg]
    have h1 : t.length ≠ 0 := by omega
    have h2 : t.length - 1 ≠ 0 := by omega
    exact Nat.cast_ne_zero.mpr (Nat.mul_ne_zero h1 h2)
  · rw [if_neg h, if_neg h]

theorem sum_toFinset_eq_dedup (l : List Nat) (f : Nat → Nat) :
    (∑ c ∈ l.toFinset, f c) = (l.dedup.map f).sum := by
  induction l with
  | nil => simp
  | cons a t ih =>
      by_cases h : a ∈ t
      · rw [List.toFinset_cons, List.dedup_cons_of_mem h,
          Finset.insert_eq_self.mpr (List.mem_toFinset.mpr h), ih]
      · rw [List.toFinset_cons, List.dedup_cons_of_not_mem h,
          Finset.sum_insert (by simpa using h), List.map_cons, List.sum_cons, ih]

/-- The value computed by `_chi_squared` (the per-letter division never
fails under the `expected > 0` guard): the spec's formula
`Σ_letter (observed − expected)² / expected` with
`expected = frequency_table[letter] × total`, zero-expected letters
contributing zero. -/
def chiVal (tbl : List (Nat × Rat)) (text : List Nat) : Rat :=
  (alphabetL.map (fun letter =>
    if 0 < dictGet tbl letter * (text.length : Rat)
    then ((text.count letter : Rat) - dictGet tbl letter * (text.length : Rat)) ^ 2 /
      (dictGet tbl letter * (text.length : Rat))
    else 0)).sum

theorem chi_squared_eq (tbl : List (Nat × Rat)) (text : List Nat) :
    chi_squared tbl text = some (chiVal tbl text) := by
  unfold chi_squared chiVal
  rw [mapOpt_some_of_forall _
    (fun letter =>
      if 0 < dictGet tbl letter * (text.length : Rat)
      then ((text.count letter : Rat) - dictGet tbl letter * (text.length : Rat)) ^ 2 /
        (dictGet tbl letter * (text.length : Rat))
      else 0)
    alphabetL ?_]
  · rfl
  · intro a _
    dsimp only
    by_cases h : 0 < dictGet tbl a * (text.length : Rat)
    · rw [if_pos h, if_pos h]
      unfold pydiv
      rw [if_neg h.ne']
    · rw [if_neg h, if_neg h]

theorem chiVal_nil (tbl : List (Nat × Rat)) : chiVal tbl [] = 0 := by
  unfold chiVal
  apply List.sum_eq_zero
  intro x hx
  rw [List.mem_map] at hx
  obtain ⟨a, _, rfl⟩ := hx
  simp

theorem chi_squared_nil (tbl : List (Nat × Rat)) : chi_squared tbl [] = some 0 := by
  rw [chi_squared_eq, chiVal_nil]

/-! ### The running minimum over shifts and maximum over lengths -/

theorem pickMinShift_range (f : Nat → Rat) :
    ∀ n, 0 < n → ∃ w, w < n ∧
      pickMinShift ((List.range n).map (fun s => (s, f s))) = some (w, f w) ∧
      (∀ s, s < n → f w ≤ f s) ∧ (∀ s, s < w → f w < f s) := by
  intro n
  induction n with
  | zero => intro h; omega
  | succ m ih =>
      intro _
      by_cases hm : 0 < m
      · obtain ⟨w, hw, hpick, hmin, hstrict⟩ := ih hm
        unfold pickMinShift at hpick ⊢
        rw [List.range_succ, List.map_append, List.foldl_append, hpick]
        by_cases hlt : f m < f w
        · refine ⟨m, by omega, ?_, ?_, ?_⟩
          · simp [hlt]
          · intro s hs
            rcases (by omega : s < m ∨ s = m) with h' | h'
            · exact le_trans hlt.le (hmin s h')
            · subst h'; exact le_refl _
          · intro s hs
            exact lt_of_lt_of_le hlt (hmin s (by omega))
        · refine ⟨w, by omega, ?_, ?_, ?_⟩
          · simp [hlt]
          · intro s hs
            rcases (by omega : s < m ∨ s = m) with h' | h'
            · exact hmin s h'
            · subst h'; exact not_lt.mp hlt
          · exact hstrict
      · have hm0 : m = 0 := by omega
        subst hm0
        refine ⟨0, by omega, ?_, ?_, ?_⟩
        · rw [List.range_succ, List.range_zero]; rfl
        · intro s hs
          have hs0 : s = 0 := by omega
          subst hs0
          exact le_refl _
        · intro s hs; omega

theorem pickMaxKey_range' (g : Nat → Rat) :
    ∀ n, 0 < n → ∃ w, 1 ≤ w ∧ w ≤ n ∧
      ((List.range' 1 n).map (fun L => (L, g L))).foldl
        (fun best p =>
          match best with
          | none => some p
          | some b => if p.2 > b.2 then some p else some b)
        none = some (w, g w) ∧
      (∀ L, 1 ≤ L → L ≤ n → g L ≤ g w) ∧
      (∀ L, 1 ≤ L → L < w → g L < g w) := by
  intro n
  induction n with
  | zero => intro h; omega
  | succ m ih =>
      intro _
      by_cases hm : 0 < m
      · obtain ⟨w, hw1, hw2, hfold, hmax, hstrict⟩ := ih hm
        rw [List.range'_concat, List.map_append, List.foldl_append, hfold]
        have hval : 1 + 1 * m = m + 1 := by omega
        rw [hval]
        by_cases hgt : g (m + 1) > g w
        · refine ⟨m + 1, by omega, by omega, ?_, ?_, ?_⟩
          · simp [hgt]
          · intro L hL1 hL2
            rcases (by omega : L ≤ m ∨ L = m + 1) with h' | h'
            · exact le_trans (hmax L hL1 h') hgt.le
            · subst h'; exact le_refl _
          · intro L hL1 hL2
            exact lt_of_le_of_lt (hmax L hL1 (by omega)) hgt
        · refine ⟨w, hw1, by omega, ?_, ?_, ?_⟩
          · simp [hgt]
          · intro L hL1 hL2
            rcases (by omega : L ≤ m ∨ L = m + 1) with h' | h'
            · exact hmax L hL1 h'
            · subst h'; exact not_lt.mp hgt
          · exact hstrict
      · have hm0 : m = 0 := by omega
        subst hm0
        refine ⟨1, le_refl 1, le_refl 1, ?_, ?_, ?_⟩
        · rfl
        · intro L hL1 hL2
          have : L = 1 := by omega
          subst this
          exact le_refl _
        · intro L hL1 hL2; omega

theorem pickMaxKey_range'_spec (g : Nat → Rat) (n : Nat) (hn : 0 < n) :
    ∃ w, 1 ≤ w ∧ w ≤ n ∧
      pickMaxKey ((List.range' 1 n).map (fun L => (L, g L))) = some w ∧
      (∀ L, 1 ≤ L → L ≤ n → g L ≤ g w) ∧
      (∀ L, 1 ≤ L → L < w → g L < g w) := by
  obtain ⟨w, hw1, hw2, hfold, hmax, hstrict⟩ := pickMaxKey_range' g n hn
  refine ⟨w, hw1, hw2, ?_, hmax, hstrict⟩
  unfold pickMaxKey
  rw [hfold]
  rfl

/-! ### The column slices -/

theorem sliceAux_getElem? (k : Nat) (hk : 1 ≤ k) :
    ∀ fuel (t : List Nat) (j : Nat), t.length ≤ fuel →
      (sliceAux fuel t k)[j]? = t[j * k]? := by
  intro fuel
  induction fuel with
  | zero =>
      intro t j h
      have ht : t = [] := List.eq_nil_of_length_eq_zero (by omega)
      subst ht
      simp [sliceAux]
  | succ m ih =>
      intro t j h
      cases t with
      | nil => simp [sliceAux]
      | cons c rest =>
          show (c :: sliceAux m (rest.drop (k - 1)) k)[j]? = (c :: rest)[j * k]?
          cases j with
          | zero => simp
          | succ q =>
              rw [List.getElem?_cons_succ,
                ih (rest.drop (k - 1)) q (by rw [List.length_drop]; simp at h; omega),
                List.getElem?_drop]
              have harith : (q + 1) * k = (k - 1 + q * k) + 1 := by
                cases k with
                | zero => omega
                | succ k' => ring_nf; omega
              rw [harith, List.getElem?_cons_succ]

theorem column_getElem? (ct : List Nat) (i k j : Nat) (hk : 1 ≤ k) :
    (column ct i k)[j]? = ct[i + j * k]? := by
  unfold column
  rw [sliceAux_getElem? k hk ct.length (ct.drop i) j
    (by rw [List.length_drop]; omega), List.getElem?_drop]

/-! ### Characterisations of the analyser's operations -/

/-- The average column IC that `estimate_key_length` assigns to a
candidate length `L`: partition into `L` columns, IC per column,
averaged. -/
def keyLenScoreVal (ct : List Nat) (L : Nat) : Rat :=
  ((List.range L).map (fun i => icVal (column ct i L))).sum / (L : Rat)

theorem keyLenScore_eq (st : AnalyserState) (L : Nat) (hL : 1 ≤ L) :
    keyLenScore st L = some (keyLenScoreVal st.ciphertext L) := by
  unfold keyLenScore
  rw [mapOpt_some_of_forall _ (fun i => icVal (column st.ciphertext i L)) _
    (fun a _ => ic_eq _)]
  show pydiv (((List.range L).map (fun i => icVal (column st.ciphertext i L))).sum)
    ((((List.range L).map (fun i => icVal (column st.ciphertext i L))).length : Nat) : Rat) = _
  rw [List.length_map, List.length_range]
  unfold pydiv keyLenScoreVal
  rw [if_neg (Nat.cast_ne_zero.mpr (by omega : L ≠ 0))]

/-- The key-length score table stored in `self.key_length_scores`:
one entry per candidate length in `[1, max_len]`, in scan order. -/
def lengthScores (ct : List Nat) (n : Nat) : List (Nat × Rat) :=
  (List.range' 1 n).map (fun L => (L, keyLenScoreVal ct L))

theorem estimate_eq (st : AnalyserState) (n : Nat) (hn : 1 ≤ n) :
    ∃ b, estimate_key_length st n =
      some (b, { st with key_length_scores := some (lengthScores st.ciphertext n) }) ∧
      1 ≤ b ∧ b ≤ n ∧
      (∀ L, 1 ≤ L → L ≤ n →
        keyLenScoreVal st.ciphertext L ≤ keyLenScoreVal st.ciphertext b) ∧
      (∀ L, 1 ≤ L → L < b →
        keyLenScoreVal st.ciphertext L < keyLenScoreVal st.ciphertext b) := by
  have hres : mapOpt (fun L => (keyLenScore st L).map (fun v => (L, v)))
      (List.range' 1 n) =
      some ((List.range' 1 n).map (fun L => (L, keyLenScoreVal st.ciphertext L))) := by
    apply mapOpt_some_of_forall
    intro L hL
    rw [keyLenScore_eq st L (List.mem_range'_1.mp hL).1]
    rfl
  obtain ⟨w, hw1, hw2, hpick, hmax, hstrict⟩ :=
    pickMaxKey_range'_spec (keyLenScoreVal st.ciphertext) n (by omega)
  refine ⟨w, ?_, hw1, hw2, hmax, hstrict⟩
  unfold estimate_key_length
  rw [hres]
  simp only [Option.bind_eq_bind, Option.some_bind]
  unfold lengthScores
  rw [hpick]
  rfl

theorem columnScores_eq (st : AnalyserState) (col : List Nat) :
    columnScores st col = some ((List.range 26).map
      (fun s => (s, chiVal st.expected_freqs (shiftedText col s)))) := by
  apply mapOpt_some_of_forall
  intro s _
  rw [chi_squared_eq]
  rfl

theorem recoverLetter_eq (st : AnalyserState) (col : List Nat) :
    ∃ w, w < 26 ∧ recoverLetter st col = some (65 + w) ∧
      (∀ s, s < 26 → chiVal st.expected_freqs (shiftedText col w) ≤
        chiVal st.expected_freqs (shiftedText col s)) ∧
      (∀ s, s < w → chiVal st.expected_freqs (shiftedText col w) <
        chiVal st.expected_freqs (shiftedText col s)) := by
  obtain ⟨w, hw, hpick, hmin, hstrict⟩ :=
    pickMinShift_range (fun s => chiVal st.expected_freqs (shiftedText col s)) 26
      (by omega)
  refine ⟨w, hw, ?_, hmin, hstrict⟩
  unfold recoverLetter
  rw [columnScores_eq]
  simp only [Option.bind_eq_bind, Option.some_bind]
  rw [hpick]
  simp only [Option.bind_eq_bind, Option.some_bind]
  unfold alphabetL
  rw [List.getElem?_range' 65 1 hw, Nat.one_mul]

theorem recover_key_spec (st : AnalyserState) (kl : Nat) :
    ∃ key, recover_key st kl = some (key, st) ∧ key.length = kl ∧
      ∀ i, i < kl → key[i]? = recoverLetter st (column st.ciphertext i kl) := by
  have hsome : ∀ i ∈ List.range kl,
      ((fun i => recoverLetter st (column st.ciphertext i kl)) i).isSome := by
    intro i _
    obtain ⟨w, _, he, _, _⟩ := recoverLetter_eq st (column st.ciphertext i kl)
    show (recoverLetter st (column st.ciphertext i kl)).isSome = true
    rw [he]; rfl
  have h := mapOpt_isSome _ (List.range kl) hsome
  rw [Option.isSome_iff_exists] at h
  obtain ⟨key, hkey⟩ := h
  obtain ⟨hlen, hget⟩ := mapOpt_spec _ (List.range kl) key hkey
  refine ⟨key, ?_, by rw [hlen, List.length_range], ?_⟩
  · unfold recover_key
    rw [hkey]
    rfl
  · intro i hi
    have hx := hget i (by rw [List.length_range]; exact hi)
    rw [List.getElem?_range hi] at hx
    simpa using hx

theorem recover_key_state {st : AnalyserState} {kl : Nat} {key : List Nat}
    {st₂ : AnalyserState} (h : recover_key st kl = some (key, st₂)) : st₂ = st := by
  unfold recover_key at h
  cases hm : mapOpt (fun i => recoverLetter st (column st.ciphertext i kl))
      (List.range kl) with
  | none => rw [hm] at h; cases h
  | some ys =>
      rw [hm] at h
      simp only [Option.map_some'] at h
      injection h with h'
      exact (congrArg Prod.snd h').symm

theorem estimate_state {st : AnalyserState} {n b : Nat} {st' : AnalyserState}
    (h : estimate_key_length st n = some (b, st')) :
    st'.ciphertext = st.ciphertext ∧ st'.expected_freqs = st.expected_freqs ∧
      st'.column_metrics = st.column_metrics := by
  unfold estimate_key_length at h
  cases hres : mapOpt (fun L => (keyLenScore st L).map (fun v => (L, v)))
      (List.range' 1 n) with
  | none => rw [hres] at h; cases h
  | some results =>
      rw [hres] at h
      simp only [Option.bind_eq_bind, Option.some_bind] at h
      cases hp : pickMaxKey results with
      | none => rw [hp] at h; cases h
      | some best =>
          rw [hp] at h
          simp only [Option.bind_eq_bind, Option.some_bind] at h
          injection h with h'
          rw [Prod.mk.injEq] at h'
          obtain ⟨-, h2⟩ := h'
          subst h2
          exact ⟨rfl, rfl, rfl⟩

theorem analyse_state {st : AnalyserState} {n : Nat} {key : List Nat}
    {st₂ : AnalyserState} (h : analyse st n = some (key, st₂)) :
    st₂.ciphertext = st.ciphertext ∧ st₂.column_metrics = st.column_metrics := by
  unfold analyse at h
  cases he : estimate_key_length st n with
  | none => rw [he] at h; cases h
  | some p =>
      obtain ⟨b, st₁⟩ := p
      rw [he] at h
      simp only [Option.bind_eq_bind, Option.some_bind] at h
      cases hr : recover_key st₁ b with
      | none => rw [hr] at h; cases h
      | some q =>
          obtain ⟨k, st₂'⟩ := q
          rw [hr] at h
          simp only [Option.bind_eq_bind, Option.some_bind] at h
          injection h with h'
          have hst : st₂ = st₂' := (congrArg Prod.snd h').symm
          have h1 := estimate_state he
          have h2 := recover_key_state hr
          subst hst
          rw [h2]
          exact ⟨h1.1, h1.2.2⟩

theorem recoverLetter_nil (st : AnalyserState) : recoverLetter st [] = some 65 := by
  obtain ⟨w, hw, he, hmin, hstrict⟩ := recoverLetter_eq st []
  have hw0 : w = 0 := by
    by_contra h0
    have hx := hstrict 0 (by omega)
    simp only [shiftedText, List.map_nil] at hx
    exact lt_irrefl _ hx
  subst hw0
  simpa using he

theorem recover_key_empty_eval :
    recover_key (initAnalyser [] [112, 116]) 1 =
      some ([65], initAnalyser [] [112, 116]) := by
  obtain ⟨key, hrec, hlen, hget⟩ := recover_key_spec (initAnalyser [] [112, 116]) 1
  have h0 : key[0]? = some 65 := by
    rw [hget 0 (by omega)]
    exact recoverLetter_nil _
  have hkey : key = [65] := by
    cases key with
    | nil => simp at hlen
    | cons a rest =>
        cases rest with
        | nil => simp at h0; rw [h0]
        | cons b r => simp at hlen
  rw [← hkey]
  exact hrec

theorem toUpper_alpha_upper {x : Nat} (h : isalpha (toUpper x) = true) :
    65 ≤ toUpper x ∧ toUpper x ≤ 90 := by
  simp only [isalpha, decide_eq_true_eq] at h
  unfold toUpper at h ⊢
  split_ifs at h ⊢ with hl
  · omega
  · omega

/-! ### Claims about the analyser -/

/-- Claim C5: the index of coincidence equals
`Σ_c f_c·(f_c−1) / (N·(N−1))` for sequences of length `N > 1` (summing
over the distinct symbols of the sequence, i.e. the keys of its
`Counter`) and `0` for `N ≤ 1`; in particular the IC of the empty
sequence and of any single-character sequence is `0`. -/
theorem claim_c5_index_of_coincidence :
    (∀ t : List Nat, ic t = some (if 1 < t.length
      then ((∑ c ∈ t.toFinset, t.count c * (t.count c - 1) : Nat) : Rat) /
        ((t.length * (t.length - 1) : Nat) : Rat)
      else 0)) ∧
    ic [] = some 0 ∧ (∀ c : Nat, ic [c] = some 0) := by
  refine ⟨?_, rfl, fun c => rfl⟩
  intro t
  rw [ic_eq, icVal, icNum, sum_toFinset_eq_dedup]

/-- Claim C3: for each column, `recover_key` scores all 26 candidate
shifts with the chi-squared statistic of the Caesar-decrypted column
(`chiVal` spells out the spec's formula:
`Σ_letter (observed − expected)² / expected` with
`expected = frequency_table[letter] × total`, zero-expected letters
contributing zero); it selects the minimising shift with ties broken
towards the smallest shift, the key letter is the alphabet symbol at the
winning shift, and the key is the concatenation in column order. -/
theorem claim_c3_shift_selection (st : AnalyserState) (kl : Nat) :
    ∃ key, recover_key st kl = some (key, st) ∧ key.length = kl ∧
      ∀ i, i < kl →
        columnScores st (column st.ciphertext i kl) =
          some ((List.range 26).map (fun s =>
            (s, chiVal st.expected_freqs (shiftedText (column st.ciphertext i kl) s)))) ∧
        (∀ s, s < 26 →
          chi_squared st.expected_freqs (shiftedText (column st.ciphertext i kl) s) =
            some (chiVal st.expected_freqs (shiftedText (column st.ciphertext i kl) s))) ∧
        ∃ w, w < 26 ∧ key[i]? = some (65 + w) ∧
          (∀ s, s < 26 →
            chiVal st.expected_freqs (shiftedText (column st.ciphertext i kl) w) ≤
              chiVal st.expected_freqs (shiftedText (column st.ciphertext i kl) s)) ∧
          (∀ s, s < w →
            chiVal st.expected_freqs (shiftedText (column st.ciphertext i kl) w) <
              chiVal st.expected_freqs (shiftedText (column st.ciphertext i kl) s)) := by
  obtain ⟨key, hrec, hlen, hget⟩ := recover_key_spec st kl
  refine ⟨key, hrec, hlen, ?_⟩
  intro i hi
  refine ⟨columnScores_eq st _, fun s _ => chi_squared_eq _ _, ?_⟩
  obtain ⟨w, hw, he, hmin, hstrict⟩ := recoverLetter_eq st (column st.ciphertext i kl)
  exact ⟨w, hw, by rw [hget i hi, he], hmin, hstrict⟩

/-- Witness for C3: on the empty ciphertext with key length 1 the loop
completes, the key is "A", and the winning shift for column 0 satisfies
the minimality and tie-breaking properties concretely. -/
theorem claim_c3_shift_selection_witness :
    recover_key (initAnalyser [] [112, 116]) 1 =
      some ([65], initAnalyser [] [112, 116]) ∧
    (∃ w, w < 26 ∧ ([65] : List Nat)[0]? = some (65 + w) ∧
      (∀ s, s < 26 →
        chiVal (initAnalyser [] [112, 116]).expected_freqs
          (shiftedText (column (initAnalyser [] [112, 116]).ciphertext 0 1) w) ≤
          chiVal (initAnalyser [] [112, 116]).expected_freqs
            (shiftedText (column (initAnalyser [] [112, 116]).ciphertext 0 1) s)) ∧
      (∀ s, s < w →
        chiVal (initAnalyser [] [112, 116]).expected_freqs
          (shiftedText (column (initAnalyser [] [112, 116]).ciphertext 0 1) w) <
          chiVal (initAnalyser [] [112, 116]).expected_freqs
            (shiftedText (column (initAnalyser [] [112, 116]).ciphertext 0 1) s))) := by
  obtain ⟨key, hrec, hlen, hbody⟩ :=
    claim_c3_shift_selection (initAnalyser [] [112, 116]) 1
  have hkey : key = [65] := by
    have hx := hrec.symm.trans recover_key_empty_eval
    injection hx with hx'
    exact congrArg Prod.fst hx'
  subst hkey
  exact ⟨recover_key_empty_eval, (hbody 0 (by omega)).2.2⟩

/-- Claim C4: `estimate_key_length` scores each candidate length `L` in
`[1, max_len]` by the average of the per-column ICs over the `L` columns
(column `i` holding every `L`-th character from offset `i`), stores the
score table, and returns the length of maximal score with ties broken
towards the smallest length. -/
theorem claim_c4_length_estimation (st : AnalyserState) (n : Nat) (hn : 1 ≤ n) :
    ∃ b st', estimate_key_length st n = some (b, st') ∧
      1 ≤ b ∧ b ≤ n ∧
      st' = { st with key_length_scores := some (lengthScores st.ciphertext n) } ∧
      (∀ L i j, 1 ≤ L →
        (column st.ciphertext i L)[j]? = st.ciphertext[i + j * L]?) ∧
      (∀ L, 1 ≤ L → L ≤ n →
        keyLenScoreVal st.ciphertext L ≤ keyLenScoreVal st.ciphertext b) ∧
      (∀ L, 1 ≤ L → L < b →
        keyLenScoreVal st.ciphertext L < keyLenScoreVal st.ciphertext b) := by
  obtain ⟨b, he, h1, h2, hmax, hstrict⟩ := estimate_eq st n hn
  exact ⟨b, _, he, h1, h2, rfl,
    fun L i j hL => column_getElem? st.ciphertext i L j hL, hmax, hstrict⟩

/-- Witness for C4: the estimation runs to completion on the empty
ciphertext with `max_len = 1`. -/
theorem claim_c4_length_estimation_witness :
    ∃ b st', estimate_key_length (initAnalyser [] [112, 116]) 1 = some (b, st') ∧
      1 ≤ b ∧ b ≤ 1 ∧
      st' = { initAnalyser [] [112, 116] with key_length_scores := some (lengthScores (initAnalyser [] [112, 116]).ciphertext 1) } ∧
      (∀ L i j, 1 ≤ L →
        (column (initAnalyser [] [112, 116]).ciphertext i L)[j]? =
          (initAnalyser [] [112, 116]).ciphertext[i + j * L]?) ∧
      (∀ L, 1 ≤ L → L ≤ 1 →
        keyLenScoreVal (initAnalyser [] [112, 116]).ciphertext L ≤
          keyLenScoreVal (initAnalyser [] [112, 116]).ciphertext b) ∧
      (∀ L, 1 ≤ L → L < b →
        keyLenScoreVal (initAnalyser [] [112, 116]).ciphertext L <
          keyLenScoreVal (initAnalyser [] [112, 116]).ciphertext b) :=
  claim_c4_length_estimation (initAnalyser [] [112, 116]) 1 (by omega)

/-- Claim C8: the analyser's working copy contains only uppercase
alphabetic code points (A-Z), and none of `estimate_key_length`,
`recover_key` or `analyse` modifies it. -/
theorem claim_c8_working_copy (ct lang : List Nat) :
    (∀ c ∈ (initAnalyser ct lang).ciphertext, 65 ≤ c ∧ c ≤ 90) ∧
    (∀ n b st', estimate_key_length (initAnalyser ct lang) n = some (b, st') →
      st'.ciphertext = (initAnalyser ct lang).ciphertext) ∧
    (∀ kl key st₂, recover_key (initAnalyser ct lang) kl = some (key, st₂) →
      st₂.ciphertext = (initAnalyser ct lang).ciphertext) ∧
    (∀ n key st₂, analyse (initAnalyser ct lang) n = some (key, st₂) →
      st₂.ciphertext = (initAnalyser ct lang).ciphertext) := by
  refine ⟨?_, fun n b st' h => (estimate_state h).1,
    fun kl key st₂ h => by rw [recover_key_state h],
    fun n key st₂ h => (analyse_state h).1⟩
  intro c hc
  have hc' : c ∈ List.filter isalpha (ct.map toUpper) := hc
  rw [List.mem_filter] at hc'
  obtain ⟨hmem, halpha⟩ := hc'
  rw [List.mem_map] at hmem
  obtain ⟨x, -, rfl⟩ := hmem
  exact toUpper_alpha_upper halpha

/-- Witness for C8: the working copy of input "a" is `['A']` whose only
element lies in the uppercase range, and `recover_key` on the empty
working copy returns its state with the working copy unchanged. -/
theorem claim_c8_working_copy_witness :
    (65 ≤ 65 ∧ 65 ≤ 90) ∧
    (initAnalyser [] [112, 116]).ciphertext = (initAnalyser [] [112, 116]).ciphertext :=
  ⟨(claim_c8_working_copy [97] [112, 116]).1 65 (by decide),
   (claim_c8_working_copy [] [112, 116]).2.2.1 1 [65] (initAnalyser [] [112, 116])
     recover_key_empty_eval⟩

/-- Claim C9: for every ciphertext and every `max_len ≥ 1`, `key_len ≥ 1`,
the three analyser operations terminate and return a value without
raising: degenerate columns contribute `IC = 0` and the
zero-expected-frequency guard makes `_chi_squared` total. -/
theorem claim_c9_totality (ct lang : List Nat) (n kl : Nat)
    (hn : 1 ≤ n) (hkl : 1 ≤ kl) :
    (estimate_key_length (initAnalyser ct lang) n).isSome = true ∧
    (recover_key (initAnalyser ct lang) kl).isSome = true ∧
    (analyse (initAnalyser ct lang) n).isSome = true ∧
    (∀ t : List Nat, t.length ≤ 1 → ic t = some 0) ∧
    (∀ txt : List Nat,
      (chi_squared (initAnalyser ct lang).expected_freqs txt).isSome = true) := by
  obtain ⟨b, he, hb1, hb2, -, -⟩ := estimate_eq (initAnalyser ct lang) n hn
  obtain ⟨key, hr, -, -⟩ := recover_key_spec (initAnalyser ct lang) kl
  refine ⟨by rw [he]; rfl, by rw [hr]; rfl, ?_, ?_, ?_⟩
  · obtain ⟨key₂, hr₂, -, -⟩ := recover_key_spec
      { initAnalyser ct lang with key_length_scores := some (lengthScores (initAnalyser ct lang).ciphertext n) } b
    unfold analyse
    rw [he]
    simp only [Option.bind_eq_bind, Option.some_bind]
    rw [hr₂]
    rfl
  · intro t ht
    unfold ic
    rw [if_neg (by omega)]
  · intro txt
    rw [chi_squared_eq]
    rfl

/-- Witness for C9: all three operations return a value on the empty
ciphertext with `max_len = key_len = 1`, the IC of a one-letter sequence
is `0`, and chi-squared is defined on a one-letter observation. -/
theorem claim_c9_totality_witness :
    (estimate_key_length (initAnalyser [] [112, 116]) 1).isSome = true ∧
    (recover_key (initAnalyser [] [112, 116]) 1).isSome = true ∧
    (analyse (initAnalyser [] [112, 116]) 1).isSome = true ∧
    ic [65] = some 0 ∧
    (chi_squared (initAnalyser [] [112, 116]).expected_freqs [65]).isSome = true := by
  have h := claim_c9_totality [] [112, 116] 1 1 (by omega) (by omega)
  exact ⟨h.1, h.2.1, h.2.2.1, h.2.2.2.1 [65] (by decide), h.2.2.2.2 [65]⟩

/-- Claim C10: for every `key_len ≥ 1`, `recover_key` returns a key of
exactly `key_len` letters even when `key_len` exceeds the number of
letters: every empty column gives all 26 shifts a chi-squared score of
`0`, so shift 0 wins the tie and the key letter is 'A' (65). -/
theorem claim_c10_degenerate_key (st : AnalyserState) (kl : Nat) (hkl : 1 ≤ kl) :
    ∃ key, recover_key st kl = some (key, st) ∧ key.length = kl ∧
      (∀ s, s < 26 → chi_squared st.expected_freqs (shiftedText [] s) = some 0) ∧
      (∀ i, i < kl → column st.ciphertext i kl = [] → key[i]? = some 65) := by
  obtain ⟨key, hrec, hlen, hget⟩ := recover_key_spec st kl
  refine ⟨key, hrec, hlen, ?_, ?_⟩
  · intro s _
    exact chi_squared_nil _
  · intro i hi hcol
    rw [hget i hi, hcol]
    exact recoverLetter_nil st

/-- Witness for C10: on the empty working copy with `key_len = 2` both
columns are empty and the recovered key is two letters long with 'A' at
position 0. -/
theorem claim_c10_degenerate_key_witness :
    ∃ key, recover_key (initAnalyser [] [112, 116]) 2 =
        some (key, initAnalyser [] [112, 116]) ∧ key.length = 2 ∧
      (∀ s, s < 26 → chi_squared (initAnalyser [] [112, 116]).expected_freqs
        (shiftedText [] s) = some 0) ∧
      (∀ i, i < 2 → column (initAnalyser [] [112, 116]).ciphertext i 2 = [] →
        key[i]? = some 65) :=
  claim_c10_degenerate_key (initAnalyser [] [112, 116]) 2 (by omega)

/-- Claim C1 (code bug): `recover_key` completes and returns only the key
string without ever assigning `self.column_metrics`, so the column
metrics `main.py`'s `column_table` reads are not exposed: the attribute
is still unset after the call and `column_table` fails
(`AttributeError`, modelled as `none`). -/
theorem claim_c1_metrics_not_exposed (ct lang : List Nat) (kl : Nat)
    (hkl : 1 ≤ kl) :
    ∃ key, recover_key (initAnalyser ct lang) kl = some (key, initAnalyser ct lang) ∧
      (initAnalyser ct lang).column_metrics = none ∧
      column_table (initAnalyser ct lang) = none := by
  obtain ⟨key, hrec, -, -⟩ := recover_key_spec (initAnalyser ct lang) kl
  exact ⟨key, hrec, rfl, rfl⟩

/-- Witness for C1: concretely, after `recover_key` succeeds on the empty
working copy, `column_table` still finds no `column_metrics`. -/
theorem claim_c1_metrics_not_exposed_witness :
    ∃ key, recover_key (initAnalyser [] [112, 116]) 1 =
        some (key, initAnalyser [] [112, 116]) ∧
      (initAnalyser [] [112, 116]).column_metrics = none ∧
      column_table (initAnalyser [] [112, 116]) = none :=
  claim_c1_metrics_not_exposed [] [112, 116] 1 (by omega)
